import Mathlib

/-!
# Verification of the MatchaTTS orchestrator (`matcha/models/matcha_tts.py`)

Shallow embedding of the alignment-cost builder, the monotonic alignment
search, duration/prior losses and the length bookkeeping of `synthesise` and
`forward`, together with theorems settling the specification's claims.

Scalar values are embedded over an arbitrary linear ordered field `α`
(instantiable with `ℝ`; witnesses instantiate `ℚ` or `ℤ` so that everything
evaluates).  The transcendental functions `exp`/`log` and the constant
`log(2π)` of the source are abstract parameters: every claim proved here is
independent of their analytic properties.  Tensors are embedded as functions
`Fin D → Fin T → α` (feature × time) or as `List α` along a single axis;
batched quantities take an extra `Fin B`.  Masks derived from
`sequence_mask(lengths)` are embedded via the length directly
(`if t < len then 1 else 0`).
-/

open Finset

namespace MatchaTTS

variable {α : Type*} [LinearOrderedField α]

/-! ## Alignment cost matrix (forward, lines 214–228)

`z` is the masked posterior-encoder output `z_spec` (`[d, t_y]` for one batch
item), `mu` the encoder prior means `mu_x` (`[d, t_x]`).  The code uses a unit
`s_p_sq_r = torch.ones_like(mu_x)`.  `l2p` stands for the source constant
`math.log(2 * math.pi)`. -/

/-- `s_p_sq_r = torch.ones_like(mu_x)`: the unit inverse variance. -/
def sPsqR (α : Type*) [LinearOrderedField α] (D Tx : ℕ) : Fin D → Fin Tx → α :=
  fun _ _ => 1

/-- `neg_cent1 = torch.sum(-0.5 * math.log(2 * math.pi) - torch.zeros_like(mu_x), [1], keepdim=True)`:
the sum over the feature axis of the constant `-0.5·log(2π)` (minus zeros). -/
def negCent1 (l2p : α) (D Tx : ℕ) (_i : Fin Tx) : α :=
  ∑ _f : Fin D, (-(1 / 2) * l2p - 0)

/-- `neg_cent2 = torch.einsum("bdt, bds -> bts", -0.5 * (z_spec**2), s_p_sq_r)`. -/
def negCent2 {D Tx Ty : ℕ} (z : Fin D → Fin Ty → α) (j : Fin Ty) (i : Fin Tx) : α :=
  ∑ f : Fin D, (-(1 / 2) * (z f j) ^ 2) * sPsqR α D Tx f i

/-- `neg_cent3 = torch.einsum("bdt, bds -> bts", z_spec, (mu_x * s_p_sq_r))`. -/
def negCent3 {D Tx Ty : ℕ} (z : Fin D → Fin Ty → α) (mu : Fin D → Fin Tx → α)
    (j : Fin Ty) (i : Fin Tx) : α :=
  ∑ f : Fin D, z f j * (mu f i * sPsqR α D Tx f i)

/-- `neg_cent4 = torch.sum(-0.5 * (mu_x**2) * s_p_sq_r, [1], keepdim=True)`. -/
def negCent4 {D Tx : ℕ} (mu : Fin D → Fin Tx → α) (i : Fin Tx) : α :=
  ∑ f : Fin D, -(1 / 2) * (mu f i) ^ 2 * sPsqR α D Tx f i

/-- `neg_cent = neg_cent1 + neg_cent2 + neg_cent3 + neg_cent4` (broadcast over
the frame axis for the two `keepdim` terms): entry for frame `j`, token `i`. -/
def negCent {D Tx Ty : ℕ} (l2p : α) (z : Fin D → Fin Ty → α)
    (mu : Fin D → Fin Tx → α) (j : Fin Ty) (i : Fin Tx) : α :=
  negCent1 l2p D Tx i + negCent2 z j i + negCent3 z mu j i + negCent4 mu i

/-! ## synthesise duration pipeline (lines 139–148)

`exp` is the abstract embedding of `torch.exp`. -/

/-- `w = torch.exp(logw) * x_mask`, per token (`m` is the token's mask value). -/
def wTok (exp : α → α) (logw m : α) : α := exp logw * m

/-- `w_ceil = torch.ceil(w) * length_scale`, per token. -/
def wCeilTok [FloorRing α] (exp : α → α) (logw m ls : α) : α :=
  (⌈wTok exp logw m⌉ : α) * ls

/-- `y_lengths = torch.clamp_min(torch.sum(w_ceil, [1, 2]), 1).long()` for one
batch item: the per-token `w_ceil` values are summed, clamped below at `1`,
then truncated to an integer (truncation towards zero coincides with the floor
on the clamped, hence nonnegative, value). -/
def yLengthItem [FloorRing α] (wceil : List α) : ℤ := ⌊max wceil.sum 1⌋

/-- Modelled from the spec: `generate_path` (in `matcha.utils.model`, not under
`src/`) builds the inference expansion path in which "each token *i* occupies
exactly `duration_i` *consecutive* frames, in increasing token order".
`cumDur durs i` is the total duration of the tokens before token `i`. -/
def cumDur (durs : List α) (i : ℕ) : α := (durs.take i).sum

/-- Modelled from the spec: frame `j` is assigned to token `i` exactly when `j`
falls in token `i`'s block of consecutive frames. -/
def genPathEntry (durs : List α) (i j : ℕ) : Prop :=
  cumDur durs i ≤ (j : α) ∧ (j : α) < cumDur durs (i + 1)

/-! ## prior loss (forward, lines 247–248) -/

/-- The real-valued `sequence_mask` entry for frame `t` given a valid length. -/
def maskVal (α : Type*) [LinearOrderedField α] (len t : ℕ) : α :=
  if t < len then 1 else 0

/-- `prior_loss = torch.sum(0.5 * ((z_spec - mu_y) ** 2 + math.log(2 * math.pi)) * y_mask)`:
the masked sum over batch, feature and frame axes (the `[b, 1, t]` mask
broadcasts along the feature axis). -/
def priorLossNum {B D T : ℕ} (l2p : α) (z muY : Fin B → Fin D → Fin T → α)
    (yLen : Fin B → ℕ) : α :=
  ∑ b : Fin B, ∑ f : Fin D, ∑ t : Fin T,
    (1 / 2) * ((z b f t - muY b f t) ^ 2 + l2p) * maskVal α (yLen b) t

/-- `torch.sum(y_mask)`: the number of valid frame positions in the batch. -/
def maskSum (α : Type*) [LinearOrderedField α] {B : ℕ} (T : ℕ)
    (yLen : Fin B → ℕ) : α :=
  ∑ b : Fin B, ∑ t : Fin T, maskVal α (yLen b) t

/-- `prior_loss = prior_loss / (torch.sum(y_mask) * self.n_feats)`. -/
def priorLoss {B D T : ℕ} (l2p : α) (z muY : Fin B → Fin D → Fin T → α)
    (yLen : Fin B → ℕ) : α :=
  priorLossNum l2p z muY yLen / (maskSum α T yLen * D)

/-! ## duration target and loss (forward, lines 235–236)

`log` is the abstract embedding of `torch.log`; `1e-8` is embedded as
`1 / 10 ^ 8`. -/

/-- `attn.sum(2)`: the per-token duration extracted from the alignment path
(the sum of the path column of token `i` over the frame axis). -/
def durOf {Tx Ty : ℕ} (attn : Fin Ty → Fin Tx → α) (i : Fin Tx) : α :=
  ∑ j : Fin Ty, attn j i

/-- `logw_ = torch.log(1e-8 + attn.sum(2)) * x_mask`, per token (`m` is the
token's mask value). -/
def logwTargetTok (log : α → α) (dur m : α) : α := log (1 / 10 ^ 8 + dur) * m

/-- Modelled from the spec: `duration_loss` (in `matcha.utils.model`, not under
`src/`) is "a masked regression loss (e.g. mean absolute or squared error over
valid tokens only), invariant to padded-token values"; embedded as the squared
error over valid tokens, normalized by the valid-token count. -/
def durationLossSpec {Tx : ℕ} (logw logwT : Fin Tx → α) (xLen : ℕ) : α :=
  (∑ i : Fin Tx, (logw i - logwT i) ^ 2 * maskVal α xLen i) / xLen

/-! ## Monotonic alignment search (forward, lines 229–233)

`maximum_path` lives in `matcha.utils.monotonic_align_vits`, which is not under
`src/`; it is modelled from §4.2 of the spec.  `cost i j` is the score of
token `i` against frame `j` (the transpose of `neg_cent`'s frame-major
layout); invalid cells are `⊥` (−∞). -/

/-- Modelled from the spec: the Viterbi-style forward DP of MAS, recursing
frame column by frame column (`masScoreCol cost Tx Ty j i` is `score[i][j]`).
Only a linear order and an addition on the score scalars are used. -/
def masScoreCol {β : Type*} [LinearOrder β] [Add β]
    (cost : ℕ → ℕ → β) (Tx Ty : ℕ) : ℕ → ℕ → WithBot β
  | 0 => fun i => if i = 0 ∧ 0 < Tx ∧ 0 < Ty then (cost 0 0 : WithBot β) else ⊥
  | j + 1 => fun i =>
      if i ≤ j + 1 ∧ i < Tx ∧ j + 1 < Ty then
        (cost i (j + 1) : WithBot β)
          + max (masScoreCol cost Tx Ty j (i - 1)) (masScoreCol cost Tx Ty j i)
      else ⊥

/-- Modelled from the spec: the DP score table:
`score[i][j] = cost[i][j] + max(score[i-1][j-1], score[i][j-1])` with
`score[0][0] = cost[0][0]`, cells where `i > j` unreachable, and cells outside
the validity bounds `(Tx, Ty)` set to −∞. -/
def masScore {β : Type*} [LinearOrder β] [Add β]
    (cost : ℕ → ℕ → β) (Tx Ty : ℕ) (i j : ℕ) : WithBot β :=
  masScoreCol cost Tx Ty j i

/-- Modelled from the spec: MAS backtracking, recursing over the frame index
(first argument `j`, then the current token index `i`). -/
def masBacktrackAux {β : Type*} [LinearOrder β]
    (s : ℕ → ℕ → WithBot β) : ℕ → ℕ → List ℕ
  | 0 => fun i => [i]
  | j + 1 => fun i =>
      masBacktrackAux s j (if i ≠ 0 ∧ s i j ≤ s (i - 1) j then i - 1 else i) ++ [i]

/-- Modelled from the spec: MAS backtracking: "starting at
`(Tx_valid-1, Ty_valid-1)`, at each `(i,j)` choose the diagonal predecessor
`(i-1,j-1)` if its score ≥ the horizontal predecessor `(i,j-1)`, else take the
horizontal predecessor; decrement `j` every step, decrement `i` only on
diagonal choice; stop at `i=0`".  Returns the token assigned to each frame
`0..j`, in frame order. -/
def masBacktrack {β : Type*} [LinearOrder β]
    (s : ℕ → ℕ → WithBot β) (i j : ℕ) : List ℕ :=
  masBacktrackAux s j i

/-- Modelled from the spec: `maximum_path` = forward DP followed by
backtracking from `(Tx-1, Ty-1)`. -/
def masPath {β : Type*} [LinearOrder β] [Add β]
    (cost : ℕ → ℕ → β) (Tx Ty : ℕ) : List ℕ :=
  masBacktrack (masScore cost Tx Ty) (Tx - 1) (Ty - 1)

/-! ## synthesise length rounding and output slicing (lines 142–177) -/

/-- Modelled from the spec: `fix_len_compatibility` (in `matcha.utils.model`,
not under `src/`): "Output length is rounded up to the nearest multiple
required by the downstream vector-field network's internal downsampling depth"
(`2^{num of UNet downsamplings}`, per the `forward` docstring). -/
def fixLenCompatibility (n factor : ℕ) : ℕ := ((n + factor - 1) / factor) * factor

/-- `encoder_outputs = mu_y[:, :, :y_max_length_]` (line 154): the frame axis
of `mu_y` (one feature row) sliced to the *rounded* length. -/
def encoderOutputs (muY : List α) (yMaxLengthR : ℕ) : List α := muY.take yMaxLengthR

/-- `decoder_outputs = decoder_outputs[:, :, :y_max_length_]` (line 158): the
ODE output sliced to the *rounded* length. -/
def decoderOutputsSlice (dec : List α) (yMaxLengthR : ℕ) : List α := dec.take yMaxLengthR

/-- `"attn": attn[:, :, :y_max_length]` (line 172): `attn` has shape
`[b, 1, t_x, t_y]`, so this slice acts on the *token* axis; each row keeps its
full frame axis (of rounded length).  Embedded as a token-major list of frame
rows. -/
def attnReturned (attn : List (List α)) (yMaxLength : ℕ) : List (List α) :=
  attn.take yMaxLength

/-! ## CFM sampling entry (synthesise, line 157)

The CFM decoder (`matcha.models.components.flow_matching`) is not under
`src/`; it is modelled from §4.5 and §7 of the spec. -/

/-- Modelled from the spec: error kinds of §7; `synthesise` can fail with
`StepCountError` (`step_count ≤ 0`). -/
inductive SynthError where
  | stepCountError : SynthError
deriving DecidableEq

/-- Modelled from the spec: fixed-step explicit Euler integration
`x_{k+1} = x_k + (1/N)·f(x_k, k/N)` for `k = 0..N-1`. -/
def eulerIter (f : α → α → α) (n : ℕ) (x0 : α) : ℕ → α
  | 0 => x0
  | k + 1 =>
      eulerIter f n x0 k + (1 / (n : α)) * f (eulerIter f n x0 k) ((k : α) / (n : α))

/-- Modelled from the spec: the CFM sampler invoked by `synthesise`; "all are
fatal and fail fast locally; the core never substitutes a default value for
malformed input", so a non-positive step count yields `StepCountError` and no
integration is attempted. -/
def cfmSample (f : α → α → α) (x0 : α) (n : ℤ) : Except SynthError α :=
  if n ≤ 0 then .error .stepCountError else .ok (eulerIter f n.toNat x0 n.toNat)

/-- The decoder invocation of `synthesise` (line 157), with the caller's
`n_timesteps` passed through unchanged. -/
def synthesiseDecode (f : α → α → α) (x0 : α) (nTimesteps : ℤ) :
    Except SynthError α :=
  cfmSample f x0 nTimesteps

/-! ## forward orchestration (lines 179–275) -/

/-- `SEGMENT_SIZE = y_lengths.min() // 2` (line 250). -/
def segmentSize (yLens : List ℕ) : ℕ := (yLens.min?.getD 0) / 2

/-- Modelled from the spec: `commons.rand_slice_segments` (not under `src/`)
draws, per example, a segment start "uniformly chosen in
`[0, valid_len − segment_len]`"; the random draw is the explicit input `rng`. -/
def sliceStart (rng len seg : ℕ) : ℕ := rng % (len - seg + 1)

/-- The training entry point `forward` (lines 179–275), assembled from the
components above.  External collaborators (the CFM loss of line 245 and the
HiFi-GAN/mel reconstruction loss of lines 257–273) are opaque inputs.  The
`out_size` argument is part of the signature (line 179) but the body never
reads it: the reconstruction segment length is `y_lengths.min() // 2`
(line 250). -/
def forwardModel {B Tx Ty D : ℕ} (log : α → α) (l2p : α)
    (logw : Fin Tx → α) (xLen : ℕ) (attnDur : Fin Tx → α)
    (zSpec muY : Fin B → Fin D → Fin Ty → α) (yLen : Fin B → ℕ)
    (yLens rng : List ℕ) (diffLossExt : α) (melLossExt : ℕ → List ℕ → α)
    (_outSize : Option ℕ) : α × α × α × α × ℕ × List ℕ :=
  let logwT := fun i => logwTargetTok log (attnDur i) (maskVal α xLen i)
  let dLoss := durationLossSpec logw logwT xLen
  let pLoss := priorLoss l2p zSpec muY yLen
  let seg := segmentSize yLens
  let starts := (List.zip rng yLens).map fun p => sliceStart p.1 p.2 seg
  (dLoss, pLoss, diffLossExt, melLossExt seg starts, seg, starts)

/-! ## Gradient-tracking discipline (forward, lines 214–245)

Forward-mode dual numbers embed PyTorch's autograd: a `Dual` carries a value
and its derivative with respect to a fixed scalar parameter; `torch.no_grad`
blocks and `.detach()` produce values with zero derivative (`Dual.const`). -/

/-- A value and its derivative with respect to a fixed scalar parameter. -/
structure Dual (α : Type*) where
  val : α
  dv : α

/-- Sum of dual numbers. -/
def Dual.add (a b : Dual α) : Dual α := ⟨a.val + b.val, a.dv + b.dv⟩

/-- Product of dual numbers (Leibniz rule). -/
def Dual.mul (a b : Dual α) : Dual α := ⟨a.val * b.val, a.dv * b.val + a.val * b.dv⟩

/-- A value that does not depend on the parameter: the embedding of constants
and of any quantity produced inside `torch.no_grad` or by `.detach()`. -/
def Dual.const (c : α) : Dual α := ⟨c, 0⟩

instance : Zero (Dual α) := ⟨⟨0, 0⟩⟩

instance : Add (Dual α) := ⟨Dual.add⟩

instance : AddCommMonoid (Dual α) where
  add_assoc a b c := by
    show Dual.add (Dual.add a b) c = Dual.add a (Dual.add b c)
    simp [Dual.add, add_assoc]
  zero_add a := by
    show Dual.add ⟨0, 0⟩ a = a
    simp [Dual.add]
  add_zero a := by
    show Dual.add a ⟨0, 0⟩ = a
    simp [Dual.add]
  add_comm a b := by
    show Dual.add a b = Dual.add b a
    simp [Dual.add, add_comm]
  nsmul := nsmulRec

/-- `torch.log` on dual numbers: `log'` is the abstract derivative of the
abstract `log`, composed by the chain rule. -/
def Dual.dlog (log log' : α → α) (a : Dual α) : Dual α :=
  ⟨log a.val, a.dv * log' a.val⟩

/-- The alignment path entry as it enters the differentiable graph: the whole
cost/search block of lines 214–233 runs under `torch.no_grad` and the result
is `.detach()`-ed, so the entry is a constant (`attnVal` is the binary path
matrix value computed by `maximum_path` from the inputs' values). -/
def attnDual (attnVal : α) : Dual α := Dual.const attnVal

/-- `attn.sum(2)` on duals: the per-token duration (line 235). -/
def durDual {Tx Ty : ℕ} (attnVal : Fin Ty → Fin Tx → α) (i : Fin Tx) : Dual α :=
  ∑ j : Fin Ty, attnDual (attnVal j i)

/-- `logw_ = torch.log(1e-8 + attn.sum(2)) * x_mask` on duals (line 235). -/
def logwTargetDual (log log' : α → α) {Tx Ty : ℕ} (attnVal : Fin Ty → Fin Tx → α)
    (xLen : ℕ) (i : Fin Tx) : Dual α :=
  Dual.mul (Dual.dlog log log' (Dual.add (Dual.const (1 / 10 ^ 8)) (durDual attnVal i)))
    (Dual.const (maskVal α xLen i))

/-- `mu_y = torch.matmul(attn.transpose, mu_x.transpose)` on duals (lines
240–241): frame `t`, feature `f`. -/
def muYDual {D Tx Ty : ℕ} (attnVal : Fin Ty → Fin Tx → α)
    (muX : Fin D → Fin Tx → Dual α) (f : Fin D) (t : Fin Ty) : Dual α :=
  ∑ i : Fin Tx, Dual.mul (attnDual (attnVal t i)) (muX f i)

end MatchaTTS

namespace MatchaTTS

variable {α : Type*} [LinearOrderedField α]

/-! ## Helper lemmas -/

lemma cumDur_succ (durs : List α) (i : ℕ) :
    cumDur durs (i + 1) = cumDur durs i + durs.getD i 0 := by
  unfold cumDur
  rw [List.take_succ, List.sum_append, List.getD_eq_getElem?_getD]
  cases h : durs[i]? <;> simp [h]

lemma sum_maskVal (T n : ℕ) (h : n ≤ T) : ∑ t : Fin T, maskVal α n t = n := by
  unfold maskVal
  rw [Fin.sum_univ_eq_sum_range (fun t => if t < n then (1 : α) else 0), Finset.sum_boole]
  norm_cast
  rw [Finset.range_eq_Ico, Finset.Ico_filter_lt, Nat.card_Ico]
  omega

lemma masBacktrack_length {β : Type*} [LinearOrder β] (s : ℕ → ℕ → WithBot β) (i j : ℕ) :
    (masBacktrack s i j).length = j + 1 := by
  unfold masBacktrack
  induction j generalizing i with
  | zero => simp [masBacktrackAux]
  | succ j ih => simp [masBacktrackAux, ih]

lemma masBacktrack_getLast? {β : Type*} [LinearOrder β] (s : ℕ → ℕ → WithBot β) (i j : ℕ) :
    (masBacktrack s i j).getLast? = some i := by
  unfold masBacktrack
  cases j with
  | zero => simp [masBacktrackAux]
  | succ j => simp [masBacktrackAux]

lemma masBacktrack_mem_le {β : Type*} [LinearOrder β] (s : ℕ → ℕ → WithBot β) (i j : ℕ) :
    ∀ x ∈ masBacktrack s i j, x ≤ i := by
  unfold masBacktrack
  induction j generalizing i with
  | zero =>
      intro x hx
      simp only [masBacktrackAux, List.mem_singleton] at hx
      omega
  | succ j ih =>
      intro x hx
      simp only [masBacktrackAux, List.mem_append, List.mem_singleton] at hx
      rcases hx with hx | hx
      · refine le_trans (ih _ x hx) ?_
        split <;> omega
      · omega

lemma masBacktrack_chain' {β : Type*} [LinearOrder β] (s : ℕ → ℕ → WithBot β) (i j : ℕ) :
    (masBacktrack s i j).Chain' (· ≤ ·) := by
  unfold masBacktrack
  induction j generalizing i with
  | zero => simp [masBacktrackAux]
  | succ j ih =>
      show List.Chain' (· ≤ ·) (masBacktrackAux s j _ ++ [i])
      refine List.Chain'.append (ih _) (List.chain'_singleton i) ?_
      intro x hx y hy
      have hlast := masBacktrack_getLast? s
        (if i ≠ 0 ∧ s i j ≤ s (i - 1) j then i - 1 else i) j
      unfold masBacktrack at hlast
      rw [hlast] at hx
      simp only [Option.mem_def, Option.some.injEq, List.head?_cons] at hx hy
      subst hx
      subst hy
      split <;> omega

lemma sum_count_eq_length (n : ℕ) :
    ∀ l : List ℕ, (∀ x ∈ l, x < n) → ∑ i ∈ Finset.range n, l.count i = l.length := by
  intro l
  induction l with
  | nil => simp
  | cons x l ih =>
      intro h
      have hx : x < n := h x (List.mem_cons_self x l)
      have hl := ih fun y hy => h y (List.mem_cons_of_mem x hy)
      simp only [List.count_cons, List.length_cons]
      rw [Finset.sum_add_distrib, hl]
      congr 1
      simp only [beq_iff_eq]
      rw [Finset.sum_ite_eq (Finset.range n) x fun _ => 1]
      simp [hx]

lemma dv_finset_sum {ι : Type*} (s : Finset ι) (g : ι → Dual α) :
    (∑ x ∈ s, g x).dv = ∑ x ∈ s, (g x).dv := by
  induction s using Finset.cons_induction with
  | empty => rfl
  | cons a s ha ih => rw [Finset.sum_cons, Finset.sum_cons, ← ih]; rfl

/-! ## Theorems -/

/-- **C1.** In training (`forward`), for every batch item and every token index
`i` and frame index `j`, the alignment cost entry
`neg_cent1 + neg_cent2 + neg_cent3 + neg_cent4` equals
`-0.5·log(2π)·D − 0.5·‖z_j‖² + ⟨z_j, mu_i⟩ − 0.5·‖mu_i‖²` under unit
covariance, where `z` is the masked posterior-encoder output and `mu` the
encoder prior means; each of the four terms is a sum over the feature axis
alone (no `Tx×Ty×D` tensor appears in the decomposition). -/
theorem negCent_closed_form {D Tx Ty : ℕ} (l2p : α) (z : Fin D → Fin Ty → α)
    (mu : Fin D → Fin Tx → α) (j : Fin Ty) (i : Fin Tx) :
    negCent l2p z mu j i =
      -(1 / 2) * l2p * D
        - (1 / 2) * (∑ f : Fin D, (z f j) ^ 2)
        + (∑ f : Fin D, z f j * mu f i)
        - (1 / 2) * (∑ f : Fin D, (mu f i) ^ 2) := by
  unfold negCent negCent1 negCent2 negCent3 negCent4 sPsqR
  simp only [mul_one, sub_zero, Finset.sum_const, Finset.card_univ, Fintype.card_fin,
    nsmul_eq_mul, ← Finset.mul_sum]
  ring

/-- **C3.** In `synthesise`, the per-token frame count is
`w_ceil = ceil(exp(logw)·x_mask)·length_scale`: a padded token (mask `0`) gets
duration `0`, a valid token (mask `1`) gets `ceil(exp(logw))·length_scale`,
and a token of duration `0` occupies no output frame of the expansion path. -/
theorem wCeil_masked_duration [FloorRing α] (exp : α → α) (logw ls : α)
    (durs : List α) (i j : ℕ) :
    wCeilTok exp logw 0 ls = 0 ∧
    wCeilTok exp logw 1 ls = (⌈exp logw⌉ : α) * ls ∧
    (durs.getD i 0 = 0 → ¬ genPathEntry durs i j) := by
  refine ⟨?_, ?_, ?_⟩
  · unfold wCeilTok wTok
    simp
  · unfold wCeilTok wTok
    simp
  · intro hdur hentry
    rcases hentry with ⟨hle, hlt⟩
    rw [cumDur_succ, hdur, add_zero] at hlt
    exact absurd (lt_of_le_of_lt hle hlt) (lt_irrefl _)

/-- Witness for C3 at `α = ℚ`, `exp` the constant-1 map, `logw = 0`, `ls = 1`,
`durs = [0]`, `i = j = 0`. -/
theorem wCeil_masked_duration_witness :
    ([(0 : ℚ)].getD 0 0 = 0) ∧ ¬ genPathEntry [(0 : ℚ)] 0 0 :=
  ⟨by simp,
    (wCeil_masked_duration (fun _ => (1 : ℚ)) 0 1 [(0 : ℚ)] 0 0).2.2 (by simp)⟩

/-- **C9.** For every input to `synthesise`, each returned mel length is at
least `1`: the summed ceiling-rounded durations are clamped below at `1`
before the integer truncation, so the frame sequence reaching the alignment
expansion and the decoder is never empty. -/
theorem melLength_pos [FloorRing α] (wceil : List α) :
    1 ≤ yLengthItem wceil ∧ 0 < (yLengthItem wceil).toNat := by
  have hfl : (1 : ℤ) ≤ yLengthItem wceil := by
    unfold yLengthItem
    exact Int.le_floor.mpr (by exact_mod_cast le_max_right wceil.sum 1)
  exact ⟨hfl, by omega⟩

/-- **C5.** In `forward`, the duration-loss target for every valid token is
`log(1e-8 + duration_from_alignment)` (the mask multiplies by `1` there), the
argument of `log` is strictly positive whenever the alignment-path entries are
nonnegative (the `1e-8` floor guards `log(0)`), and the resulting loss is
unchanged when predicted log-durations are altered at padded tokens only. -/
theorem duration_target_masked_guarded {Tx Ty : ℕ} (log : α → α)
    (attn : Fin Ty → Fin Tx → α) (logw logw' : Fin Tx → α) (xLen : ℕ)
    (hattn : ∀ j i, 0 ≤ attn j i)
    (hagree : ∀ i : Fin Tx, (i : ℕ) < xLen → logw i = logw' i) :
    (∀ i : Fin Tx, (i : ℕ) < xLen →
        logwTargetTok log (durOf attn i) (maskVal α xLen i)
          = log (1 / 10 ^ 8 + durOf attn i)) ∧
    (∀ i : Fin Tx, 0 < 1 / 10 ^ 8 + durOf attn i) ∧
    durationLossSpec logw
        (fun i => logwTargetTok log (durOf attn i) (maskVal α xLen i)) xLen
      = durationLossSpec logw'
          (fun i => logwTargetTok log (durOf attn i) (maskVal α xLen i)) xLen := by
  refine ⟨?_, ?_, ?_⟩
  · intro i hi
    unfold logwTargetTok maskVal
    simp [hi]
  · intro i
    have h1 : (0 : α) < 1 / 10 ^ 8 := by positivity
    have h2 : 0 ≤ durOf attn i := Finset.sum_nonneg fun j _ => hattn j i
    linarith
  · unfold durationLossSpec
    congr 1
    refine Finset.sum_congr rfl fun i _ => ?_
    unfold maskVal
    by_cases h : (i : ℕ) < xLen
    · rw [hagree i h]
    · simp [h]

/-- Witness for C5 at `α = ℚ`, `Tx = Ty = 1`, unit alignment entries. -/
theorem duration_target_masked_guarded_witness :
    (0 : ℚ) < 1 / 10 ^ 8 + durOf (fun (_ : Fin 1) (_ : Fin 1) => (1 : ℚ)) (0 : Fin 1) :=
  (duration_target_masked_guarded (fun _ => (0 : ℚ))
      (fun (_ : Fin 1) (_ : Fin 1) => (1 : ℚ)) (fun _ => 0) (fun _ => 0) 1
      (fun _ _ => le_of_lt one_pos) (fun _ _ => rfl)).2.1 0

/-- **C6.** In `forward`, the prior loss equals the masked unit-variance
Gaussian negative log-likelihood between `z` and `mu_y`: the sum over valid
frame positions of `0.5·((z − mu_y)² + log(2π))`, normalized by
`(number of valid frame positions × n_feats)`; changing `z` or `mu_y` at
padded frames only leaves the loss unchanged. -/
theorem prior_loss_masked_nll {B D T : ℕ} (l2p : α)
    (z z' muY muY' : Fin B → Fin D → Fin T → α) (yLen : Fin B → ℕ)
    (hT : ∀ b, yLen b ≤ T)
    (hz : ∀ b f (t : Fin T), (t : ℕ) < yLen b → z b f t = z' b f t)
    (hmu : ∀ b f (t : Fin T), (t : ℕ) < yLen b → muY b f t = muY' b f t) :
    priorLoss l2p z muY yLen =
      (∑ b : Fin B, ∑ f : Fin D,
          ∑ t ∈ Finset.univ.filter fun t : Fin T => (t : ℕ) < yLen b,
            (1 / 2) * ((z b f t - muY b f t) ^ 2 + l2p)) /
        ((∑ b : Fin B, (yLen b : α)) * D) ∧
    priorLoss l2p z muY yLen = priorLoss l2p z' muY' yLen := by
  have hden : maskSum α T yLen = ∑ b : Fin B, (yLen b : α) := by
    unfold maskSum
    exact Finset.sum_congr rfl fun b _ => sum_maskVal T (yLen b) (hT b)
  constructor
  · have hnum : priorLossNum l2p z muY yLen
        = ∑ b : Fin B, ∑ f : Fin D,
            ∑ t ∈ Finset.univ.filter fun t : Fin T => (t : ℕ) < yLen b,
              (1 / 2) * ((z b f t - muY b f t) ^ 2 + l2p) := by
      unfold priorLossNum maskVal
      refine Finset.sum_congr rfl fun b _ => Finset.sum_congr rfl fun f _ => ?_
      rw [Finset.sum_filter]
      refine Finset.sum_congr rfl fun t _ => ?_
      by_cases h : (t : ℕ) < yLen b <;> simp [h]
    unfold priorLoss
    rw [hnum, hden]
  · have hnum2 : priorLossNum l2p z muY yLen = priorLossNum l2p z' muY' yLen := by
      unfold priorLossNum maskVal
      refine Finset.sum_congr rfl fun b _ => Finset.sum_congr rfl fun f _ =>
        Finset.sum_congr rfl fun t _ => ?_
      by_cases h : (t : ℕ) < yLen b
      · rw [hz b f t h, hmu b f t h]
      · simp [h]
    unfold priorLoss
    rw [hnum2]

/-- Witness for C6 at `α = ℚ`, `B = D = T = 1`, all-zero fields, unit length. -/
theorem prior_loss_masked_nll_witness :
    priorLoss (0 : ℚ) (fun (_ : Fin 1) (_ : Fin 1) (_ : Fin 1) => (0 : ℚ))
        (fun _ _ _ => 0) (fun _ => 1)
      = (∑ _b : Fin 1, ∑ _f : Fin 1,
          ∑ _t ∈ Finset.univ.filter fun t : Fin 1 => (t : ℕ) < 1,
            (1 / 2 : ℚ) * (((0 : ℚ) - 0) ^ 2 + 0)) /
        ((∑ _b : Fin 1, ((1 : ℕ) : ℚ)) * (1 : ℕ)) :=
  (prior_loss_masked_nll (0 : ℚ) (fun (_ : Fin 1) (_ : Fin 1) (_ : Fin 1) => (0 : ℚ))
      (fun _ _ _ => 0) (fun _ _ _ => 0)
      (fun _ _ _ => 0) (fun _ => 1) (fun _ => le_refl 1)
      (fun _ _ _ _ => rfl) (fun _ _ _ _ => rfl)).1

/-- **C2.** For every cost matrix and consistent validity bounds
(`1 ≤ Tx`, `1 ≤ Ty`), the path produced by the monotonic alignment search is
monotonic non-decreasing in token index as frame index increases, assigns each
valid frame exactly one token, and its per-token durations (row sums) total
exactly `Ty`, the number of valid frames. -/
theorem mas_path_properties {β : Type*} [LinearOrder β] [Add β]
    (cost : ℕ → ℕ → β) (Tx Ty : ℕ) (hTx : 1 ≤ Tx) (hTy : 1 ≤ Ty) :
    (masPath cost Tx Ty).Chain' (· ≤ ·) ∧
    (masPath cost Tx Ty).length = Ty ∧
    (∀ j : ℕ, j < Ty → ∑ i ∈ Finset.range Tx,
        (if (masPath cost Tx Ty).get? j = some i then 1 else 0) = 1) ∧
    ∑ i ∈ Finset.range Tx, (masPath cost Tx Ty).count i = Ty := by
  have hlen : (masPath cost Tx Ty).length = Ty := by
    unfold masPath
    rw [masBacktrack_length]
    omega
  have hmem : ∀ x ∈ masPath cost Tx Ty, x < Tx := by
    intro x hx
    have := masBacktrack_mem_le (masScore cost Tx Ty) (Tx - 1) (Ty - 1) x hx
    omega
  refine ⟨masBacktrack_chain' _ _ _, hlen, ?_, ?_⟩
  · intro j hj
    have hjl : j < (masPath cost Tx Ty).length := by omega
    rw [List.get?_eq_get hjl]
    simp only [List.get_eq_getElem, Option.some.injEq]
    rw [Finset.sum_ite_eq (Finset.range Tx) ((masPath cost Tx Ty)[j]) fun _ => 1]
    have htx : (masPath cost Tx Ty)[j] < Tx := hmem _ (List.getElem_mem hjl)
    simp [htx]
  · rw [sum_count_eq_length Tx _ hmem, hlen]

/-- Witness for C2 at `β = ℤ`, zero cost, `Tx = 2`, `Ty = 3`; the search
assigns frames `0,1` to token `0` and frame `2` to token `1`. -/
theorem mas_path_properties_witness :
    masPath (fun _ _ => (0 : ℤ)) 2 3 = [0, 0, 1] ∧
    ((1 : ℕ) ≤ 2 ∧ (1 : ℕ) ≤ 3) ∧
    ((masPath (fun _ _ => (0 : ℤ)) 2 3).Chain' (· ≤ ·) ∧
     (masPath (fun _ _ => (0 : ℤ)) 2 3).length = 3 ∧
     (∀ j : ℕ, j < 3 → ∑ i ∈ Finset.range 2,
        (if (masPath (fun _ _ => (0 : ℤ)) 2 3).get? j = some i then 1 else 0) = 1) ∧
     ∑ i ∈ Finset.range 2, (masPath (fun _ _ => (0 : ℤ)) 2 3).count i = 3) :=
  ⟨by decide, ⟨by decide, by decide⟩,
    mas_path_properties (fun _ _ => (0 : ℤ)) 2 3 (by decide) (by decide)⟩

/-- **C4 (counterexample).** With unrounded maximum length `5` and a
downsampling factor of `4` (two UNet downsamplings), the rounded length is
`8`; the encoder-output slice `mu_y[:, :, :y_max_length_]` keeps all `8`
frames, the decoder-output slice keeps all `8` frames, and the alignment
slice `attn[:, :, :y_max_length]` acts on the token axis so its frame rows
also keep all `8` frames: the padded frames beyond `y_max_length = 5` are not
discarded from the returned fields, refuting the claim as stated. -/
theorem synthesise_truncation_counterexample :
    fixLenCompatibility 5 4 = 8 ∧
    (encoderOutputs (List.replicate 8 (0 : ℚ)) (fixLenCompatibility 5 4)).length = 8 ∧
    ¬ ((encoderOutputs (List.replicate 8 (0 : ℚ)) (fixLenCompatibility 5 4)).length ≤ 5) ∧
    (decoderOutputsSlice (List.replicate 8 (0 : ℚ)) (fixLenCompatibility 5 4)).length = 8 ∧
    (attnReturned [List.replicate 8 (0 : ℚ)] 5).map List.length = [8] := by
  refine ⟨rfl, ?_, ?_, ?_, ?_⟩ <;>
    simp [encoderOutputs, decoderOutputsSlice, attnReturned, fixLenCompatibility]

/-- **C4 (amended).** In `synthesise`, the frame axis is rounded up via
`fix_len_compatibility` to a multiple of the decoder's downsampling factor
before ODE integration (the rounded length bounds the original and is
divisible by the factor), but the extra padded frames beyond the unrounded
`y_max_length` are retained in the returned result: the encoder and decoder
outputs are sliced only to the rounded length, and the alignment slice by
`y_max_length` acts on the token axis, each kept token row retaining its full
rounded frame axis. -/
theorem synthesise_rounding_and_slicing (n factor : ℕ) (hf : 0 < factor)
    (muY dec : List α) (attn : List (List α))
    (hmu : muY.length = fixLenCompatibility n factor)
    (hdec : dec.length = fixLenCompatibility n factor)
    (hattn : ∀ row ∈ attn, row.length = fixLenCompatibility n factor) :
    n ≤ fixLenCompatibility n factor ∧
    fixLenCompatibility n factor % factor = 0 ∧
    (encoderOutputs muY (fixLenCompatibility n factor)).length
      = fixLenCompatibility n factor ∧
    (decoderOutputsSlice dec (fixLenCompatibility n factor)).length
      = fixLenCompatibility n factor ∧
    (∀ row ∈ attnReturned attn n, row.length = fixLenCompatibility n factor) := by
  refine ⟨?_, ?_, ?_, ?_, ?_⟩
  · calc n ≤ factor • (n ⌈/⌉ factor) := le_smul_ceilDiv hf
      _ = fixLenCompatibility n factor := by
        rw [Nat.ceilDiv_eq_add_pred_div, smul_eq_mul, Nat.mul_comm]
        rfl
  · exact Nat.mul_mod_left _ _
  · simp [encoderOutputs, hmu]
  · simp [decoderOutputsSlice, hdec]
  · intro row hrow
    exact hattn row (List.mem_of_mem_take hrow)

/-- Witness for C4 (amended) at `n = 5`, `factor = 4`, all-zero rows. -/
theorem synthesise_rounding_and_slicing_witness :
    (0 < 4 ∧ (List.replicate 8 (0 : ℚ)).length = fixLenCompatibility 5 4) ∧
    5 ≤ fixLenCompatibility 5 4 :=
  ⟨⟨by decide, by simp [fixLenCompatibility]⟩,
    (synthesise_rounding_and_slicing 5 4 (by decide) (List.replicate 8 (0 : ℚ))
      (List.replicate 8 (0 : ℚ)) [List.replicate 8 (0 : ℚ)]
      (by simp [fixLenCompatibility]) (by simp [fixLenCompatibility])
      (by simp [fixLenCompatibility])).1⟩

/-- **C7.** `synthesise` fails fast with `StepCountError` for every call with
`n_timesteps ≤ 0`; no default step count is substituted and no integration
step runs. -/
theorem synthesise_step_count_error (f : α → α → α) (x0 : α) (n : ℤ)
    (hn : n ≤ 0) :
    synthesiseDecode f x0 n = Except.error SynthError.stepCountError := by
  unfold synthesiseDecode cfmSample
  simp [hn]

/-- Witness for C7 at `α = ℚ`, zero vector field, `n_timesteps = 0`. -/
theorem synthesise_step_count_error_witness :
    (0 : ℤ) ≤ 0 ∧
    synthesiseDecode (fun _ _ => (0 : ℚ)) 0 0
      = Except.error SynthError.stepCountError :=
  ⟨le_refl 0, synthesise_step_count_error (fun _ _ => (0 : ℚ)) 0 0 (le_refl 0)⟩

/-- **C8.** In `forward`, the alignment search result enters the
differentiable graph as a constant (the cost build and search run inside
`torch.no_grad` and the path is detached): every path entry has zero
derivative, the extracted durations and the duration-loss target `logw_` have
zero derivative, and `mu_y` differentiates as if the path were a constant
coefficient matrix (its derivative is the path-value-weighted sum of the
`mu_x` derivatives alone). -/
theorem mas_no_grad_constant {D Tx Ty : ℕ} (log log' : α → α)
    (attnVal : Fin Ty → Fin Tx → α) (muX : Fin D → Fin Tx → Dual α)
    (xLen : ℕ) :
    (∀ (j : Fin Ty) (i : Fin Tx), (attnDual (attnVal j i) : Dual α).dv = 0) ∧
    (∀ i : Fin Tx, (durDual attnVal i).dv = 0) ∧
    (∀ i : Fin Tx, (logwTargetDual log log' attnVal xLen i).dv = 0) ∧
    (∀ (f : Fin D) (t : Fin Ty),
        (muYDual attnVal muX f t).dv = ∑ i : Fin Tx, attnVal t i * (muX f i).dv) := by
  have hdur : ∀ i : Fin Tx, (durDual attnVal i).dv = 0 := by
    intro i
    unfold durDual
    rw [dv_finset_sum]
    simp [attnDual, Dual.const]
  refine ⟨fun j i => rfl, hdur, ?_, ?_⟩
  · intro i
    simp [logwTargetDual, Dual.mul, Dual.dlog, Dual.add, Dual.const, hdur i]
  · intro f t
    unfold muYDual
    rw [dv_finset_sum]
    refine Finset.sum_congr rfl fun i _ => ?_
    simp [Dual.mul, attnDual, Dual.const]

/-- **C10.** The result of `forward` is independent of its `out_size`
argument: two runs identical in all other inputs (including the random draws
for the reconstruction slice) but differing in `out_size` produce identical
outputs — the segment length is always `y_lengths.min() // 2` and `out_size`
is never read in the body. -/
theorem forward_out_size_independent {B Tx Ty D : ℕ} (log : α → α) (l2p : α)
    (logw : Fin Tx → α) (xLen : ℕ) (attnDur : Fin Tx → α)
    (zSpec muY : Fin B → Fin D → Fin Ty → α) (yLen : Fin B → ℕ)
    (yLens rng : List ℕ) (diffLossExt : α) (melLossExt : ℕ → List ℕ → α)
    (o1 o2 : Option ℕ) :
    forwardModel log l2p logw xLen attnDur zSpec muY yLen yLens rng
        diffLossExt melLossExt o1
      = forwardModel log l2p logw xLen attnDur zSpec muY yLen yLens rng
          diffLossExt melLossExt o2 := rfl

end MatchaTTS
